import Mathlib

/-!
Verification of the roundtable-ui dashboard core against its specification.

The definitions below are shallow embeddings of the relevant program
fragments:

* the bounded, newest-first WebSocket event buffer and its history seeding
  (`src/ui/src/hooks/useWebSocket.ts` and the variant with `seedHistory`),
* the exponential-backoff reconnect delay state machine (same file),
* the chain step DAG layout (`layoutSteps` / `getCol` in
  `src/ui/src/pages/Chains.tsx`),
* the fleet busy-detection fold (`FleetGraph` in
  `src/ui/src/components/FleetGraph.tsx` plus `knightNameForDomain` from
  `src/ui/src/lib/knights.ts`),
* dispatch validation (`taskDispatchHandler` and `wsHandler` in
  `src/api/main.go`),
* step result truncation (`parseChainResource` in `src/api/main.go`).

JavaScript `Map`s are embedded as insertion-ordered association lists
(JS `Map` iteration order is insertion order, which the layout code
relies on); the unbounded recursion of `getCol` is embedded with an
explicit fuel parameter, `none` standing for non-termination within the
given recursion budget.
-/

namespace RoundTable

/-- One pub/sub message as stored by the event stream client
(`NatsEvent` in `useWebSocket.ts`).  `data` is opaque to the stream
client; the only field any embedded consumer reads out of it is
`task_id`, so the payload is abstracted to the extracted task id
(`""` when absent, matching `(data.task_id as string) || ''`). -/
structure NatsEvent where
  type : String
  subject : String
  taskId : String
  timestamp : String
  deriving Repr, DecidableEq

/-- `MAX_EVENTS` in `useWebSocket.ts`. -/
def MAX_EVENTS : Nat := 200

/-- `RECONNECT_DELAY_MS` in `useWebSocket.ts`. -/
def RECONNECT_DELAY_MS : Nat := 3000

/-- `MAX_RECONNECT_DELAY_MS` in `useWebSocket.ts`. -/
def MAX_RECONNECT_DELAY_MS : Nat := 30000

/-- The `ws.onmessage` buffer update: prepend the parsed event and cap
at `MAX_EVENTS` (`const next = [event, ...prev]; return next.length >
MAX_EVENTS ? next.slice(0, MAX_EVENTS) : next`). -/
def onMessage (prev : List NatsEvent) (event : NatsEvent) : List NatsEvent :=
  let next := event :: prev
  if next.length > MAX_EVENTS then next.take MAX_EVENTS else next

/-- Deliver a sequence of inbound frames (oldest delivered first) to the
buffer.  `none` models a frame `JSON.parse` failed on, which the handler
silently drops. -/
def processMessages (init : List NatsEvent) (msgs : List (Option NatsEvent)) :
    List NatsEvent :=
  msgs.foldl
    (fun buf m =>
      match m with
      | some e => onMessage buf e
      | none => buf)
    init

/-- The history seeding `setEvents` update in the `useWebSocket` variant
with JetStream seeding (`src/unnamed/part_003`): when the historical
batch is non-empty, `const merged = [...prev, ...historical]; return
merged.slice(0, MAX_EVENTS)`. -/
def seedHistory (prev historical : List NatsEvent) : List NatsEvent :=
  if historical.length > 0 then (prev ++ historical).take MAX_EVENTS else prev

/-- Connection-level events seen by the reconnect logic: `opened` is a
successful `ws.onopen`, `closed` is a `ws.onclose` (failure). -/
inductive ConnEvent where
  | opened
  | closed
  deriving Repr, DecidableEq

/-- One transition of the stored reconnect delay (`reconnectDelay.current`):
`onopen` resets it to the floor, `onclose` doubles it capped at
`MAX_RECONNECT_DELAY_MS`. -/
def stepDelay (d : Nat) : ConnEvent → Nat
  | ConnEvent.opened => RECONNECT_DELAY_MS
  | ConnEvent.closed => min (d * 2) MAX_RECONNECT_DELAY_MS

/-- The stored reconnect delay after a trace of connection events,
starting from stored delay `d`. -/
def delayAfter (d : Nat) (trace : List ConnEvent) : Nat :=
  trace.foldl stepDelay d

/-- The delays actually used to schedule reconnects along a trace: on
each `closed` the timer is armed with the *current* stored delay
(`const delay = reconnectDelay.current; ... setTimeout(connect, delay)`)
and the stored delay is then doubled/capped. -/
def usedDelays (d : Nat) : List ConnEvent → List Nat
  | [] => []
  | ConnEvent.opened :: rest => usedDelays RECONNECT_DELAY_MS rest
  | ConnEvent.closed :: rest =>
      d :: usedDelays (min (d * 2) MAX_RECONNECT_DELAY_MS) rest

/-- One node of a chain's dependency DAG (`ChainStep` in
`src/ui/src/pages/Chains.tsx`). -/
structure ChainStep where
  name : String
  knight : String := ""
  domain : String := ""
  phase : String := ""
  startTime : Option String := none
  completionTime : Option String := none
  result : Option String := none
  dependsOn : List String := []
  retryCount : Nat := 0
  deriving Repr, DecidableEq

/-- `stepMap.get(name)` for `const stepMap = new Map(steps.map(s =>
[s.name, s]))`: with duplicate names the later entry wins, as in a JS
`Map` built from a list of pairs. -/
def mapGet (steps : List ChainStep) (n : String) : Option ChainStep :=
  steps.foldl (fun acc s => if s.name = n then some s else acc) none

/-- `columns.get(name)` on the memo table.  The table is an
insertion-ordered association list; keys are unique because the layout
code inserts a key only after a failed lookup, so first-match lookup
agrees with JS `Map.get`. -/
def lookupA (tbl : List (String × Nat)) (n : String) : Option Nat :=
  (tbl.find? (fun p => p.1 = n)).map Prod.snd

/-- The evaluation of `Math.max(...step.dependsOn.map(d => getCol(d)))`:
compute `g` on each dependency left to right, threading the memo table,
and take the running maximum (all columns are naturals, so starting the
maximum at 0 agrees with `Math.max` on a non-empty list). -/
def depsFold (g : List (String × Nat) → String → Option (Nat × List (String × Nat))) :
    Nat → List (String × Nat) → List String → Option (Nat × List (String × Nat))
  | m, cols, [] => some (m, cols)
  | m, cols, d :: ds =>
    match g cols d with
    | none => none
    | some (c, cols') => depsFold g (max m c) cols' ds

/-- The memoized recursive column function `getCol` of `layoutSteps`
(`Chains.tsx:62`).  The source recursion has no termination guard; the
`fuel` parameter makes the embedding total, with `none` standing for
"the recursion does not complete within `fuel` nested calls".  On
success it returns the computed column together with the updated memo
table. -/
def getCol (steps : List ChainStep) : Nat → List (String × Nat) → String →
    Option (Nat × List (String × Nat))
  | 0, _, _ => none
  | fuel + 1, cols, name =>
    match lookupA cols name with
    | some c => some (c, cols)
    | none =>
      match mapGet steps name with
      | none => some (0, cols ++ [(name, 0)])
      | some step =>
        match step.dependsOn with
        | [] => some (0, cols ++ [(name, 0)])
        | d :: ds =>
          match depsFold (getCol steps fuel) 0 cols (d :: ds) with
          | none => none
          | some (m, cols') => some (m + 1, cols' ++ [(name, m + 1)])

/-- The fuel given to each top-level `getCol` call: on an acyclic graph
the recursion depth is bounded by the number of steps plus one (proved
below), so this budget never cuts a terminating computation short. -/
def layoutFuel (steps : List ChainStep) : Nat := steps.length + 2

/-- `steps.forEach(s => getCol(s.name))`: build the full column memo
table, `none` if some call exhausts its recursion budget. -/
def runColumns (steps : List ChainStep) : Option (List (String × Nat)) :=
  steps.foldlM
    (fun cols s => (getCol steps (layoutFuel steps) cols s.name).map Prod.snd)
    []

/-- The names assigned column `c`, in memo-table insertion order: this
is the `colGroups.get(c)` array built by iterating `columns` (a JS
`Map`, iterated in insertion order) and pushing each name onto its
column's group. -/
def colGroup (tbl : List (String × Nat)) (c : Nat) : List String :=
  (tbl.filter (fun p => p.2 = c)).map Prod.fst

/-- `layoutSteps` (`Chains.tsx:57`): the final positions map, as the
list of `(name, column, row)` with `row` the index of the name inside
its column group (`names.forEach((name, row) => positions.set(name,
{ col, row }))`). -/
def layoutSteps (steps : List ChainStep) : Option (List (String × Nat × Nat)) :=
  (runColumns steps).map
    (fun tbl => tbl.map (fun p => (p.1, p.2, (colGroup tbl p.2).indexOf p.1)))

/-- The position `layoutSteps` assigns to a given step name. -/
def positionOf (steps : List ChainStep) (n : String) : Option (Nat × Nat) :=
  (layoutSteps steps).bind (fun ps => (ps.find? (fun p => p.1 = n)).map Prod.snd)

/-- The dependency edge relation of an input list: `depEdge steps a b`
holds when the step the layout resolves for name `b` lists `a` in its
`dependsOn` and `a` itself resolves to a step of the list. -/
def depEdge (steps : List ChainStep) (a b : String) : Prop :=
  (mapGet steps a).isSome = true ∧
    match mapGet steps b with
    | some s => a ∈ s.dependsOn
    | none => False

/-- Acyclicity of an input list, rendered as the existence of a rank
function that strictly increases along every dependency-of edge listed
by any step of the list (for a finite graph this is equivalent to the
absence of directed cycles). -/
def Acyclic (steps : List ChainStep) : Prop :=
  ∃ rank : String → Nat, ∀ s ∈ steps, ∀ d ∈ s.dependsOn,
    (mapGet steps d).isSome = true → rank d < rank s.name

/-- The maximum of a list of naturals, as the running `Math.max` fold
the layout performs (base 0). -/
def maxList (l : List Nat) : Nat := l.foldl max 0

/-- Memo-table extension: every settled lookup is preserved.  The
layout only ever appends fresh keys, so the tables it builds grow in
this sense. -/
def Extends (t u : List (String × Nat)) : Prop :=
  ∀ n c, lookupA t n = some c → lookupA u n = some c

/-- The defining equation of one memo-table entry, read against table
`tbl`: a name that resolves to no step, or to a step without
dependencies, has column 0; otherwise all its dependencies are settled
in `tbl` and the column is one more than their maximum. -/
def entryOK (steps : List ChainStep) (tbl : List (String × Nat)) (n : String) (c : Nat) :
    Prop :=
  (mapGet steps n = none → c = 0) ∧
  (∀ s, mapGet steps n = some s → s.dependsOn = [] → c = 0) ∧
  (∀ s, mapGet steps n = some s → s.dependsOn ≠ [] →
    (∀ d ∈ s.dependsOn, (lookupA tbl d).isSome = true) ∧
    c = 1 + maxList (s.dependsOn.map (fun d => (lookupA tbl d).getD 0)))

/-- Invariant of the memo table: every entry satisfies its defining
equation. -/
def Inv (steps : List ChainStep) (tbl : List (String × Nat)) : Prop :=
  ∀ n c, lookupA tbl n = some c → entryOK steps tbl n c

/-- Input lists in which every dependency of a step names some step
strictly earlier in the list (in particular there are no dangling
references). -/
def DepsPrecede (steps : List ChainStep) : Prop :=
  ∀ pre s post, steps = pre ++ s :: post →
    ∀ d ∈ s.dependsOn, d ∈ pre.map (fun t => t.name)

/-- `KNIGHT_CONFIG` from `src/ui/src/lib/knights.ts`, restricted to the
fields the embedded consumers read: the knight name and its domain. -/
def KNIGHT_CONFIG : List (String × String) :=
  [("galahad", "security"), ("kay", "research"), ("tristan", "infra"),
   ("gawain", "project"), ("agravain", "pentest"), ("bedivere", "home"),
   ("percival", "finance"), ("patsy", "vault"), ("gareth", "wellness"),
   ("lancelot", "career")]

/-- `knightNameForDomain` (`knights.ts`): a direct knight-name match
wins, otherwise look the domain up in the config. -/
def knightNameForDomain (domainOrName : String) : Option String :=
  if (KNIGHT_CONFIG.find? (fun p => p.1 = domainOrName)).isSome then some domainOrName
  else (KNIGHT_CONFIG.find? (fun p => p.2 = domainOrName)).map Prod.fst

/-- `subject.split('.')`, embedded over the subject's characters (the
separator is a single character, so the character-level split agrees
with the JS string split). -/
def splitDot (s : String) : List String :=
  (s.data.splitOn '.').map (fun cs => String.mk cs)

/-- `event.subject.split('.')[2] || ''`. -/
def subjectDomain (subject : String) : String :=
  (splitDot subject).getD 2 ""

/-- One iteration of the `FleetGraph` activity loop
(`FleetGraph.tsx:277`) restricted to the `pendingTasks` set of one
knight: a `task` event whose subject routes to this knight adds its
non-empty `task_id`, any other event type deletes it.  The JS `Set` is
embedded as a duplicate-free list in insertion order. -/
def fleetStep (knight : String) (pend : List String) (e : NatsEvent) : List String :=
  match knightNameForDomain (subjectDomain e.subject) with
  | none => pend
  | some k =>
    if k = knight then
      if e.type = "task" then
        if e.taskId = "" then pend
        else if e.taskId ∈ pend then pend else pend ++ [e.taskId]
      else
        if e.taskId = "" then pend else pend.erase e.taskId
    else pend

/-- The `pendingTasks` set `FleetGraph` ends up with for one knight
after walking the event buffer in array order (the buffer is stored
newest-first, and the loop `for (const event of events)` follows that
order). -/
def fleetPendingTasks (events : List NatsEvent) (knight : String) : List String :=
  events.foldl (fleetStep knight) []

/-- `a.busy = a.pendingTasks.size > 0` (`FleetGraph.tsx:302`). -/
def fleetBusy (events : List NatsEvent) (knight : String) : Bool :=
  !(fleetPendingTasks events knight).isEmpty

/-- `validKnightName = regexp.MustCompile("^[a-zA-Z][a-zA-Z0-9-]\x7b0,62\x7d$")`
from `src/api/main.go:31`, unfolded over the characters of the string
(Go regexps quantify over runes). -/
def validKnightName (s : String) : Bool :=
  match s.data with
  | [] => false
  | c :: rest =>
    (('a' ≤ c && c ≤ 'z') || ('A' ≤ c && c ≤ 'Z')) &&
      rest.length ≤ 62 &&
      rest.all (fun x =>
        ('a' ≤ x && x ≤ 'z') || ('A' ≤ x && x ≤ 'Z') ||
        ('0' ≤ x && x ≤ '9') || x = '-')

/-- The decoded body of a REST dispatch request (`taskDispatchHandler`
in `src/api/main.go`). -/
structure DispatchRequest where
  knight : String
  domain : String
  task : String
  timeoutMs : Nat := 0
  deriving Repr, DecidableEq

/-- The observable outcome of `taskDispatchHandler`. -/
inductive HandlerResult where
  | clientError (status : Nat) (msg : String)
  | dispatched (taskId subject : String)
  deriving Repr, DecidableEq

/-- `taskDispatchHandler` (`main.go:397`): validate, then publish
exactly one message.  `nowMillis` stands for `time.Now().UnixMilli()`;
the second component is the list of subjects published to the bus.
Task length is measured in bytes, as Go `len` does. -/
def taskDispatchHandler (req : DispatchRequest) (nowMillis : Nat) :
    HandlerResult × List String :=
  if !(validKnightName req.knight) || !(validKnightName req.domain) then
    (HandlerResult.clientError 400 "Invalid knight or domain name", [])
  else if req.task.utf8ByteSize = 0 ∨ 10000 < req.task.utf8ByteSize then
    (HandlerResult.clientError 400 "Task must be 1-10000 characters", [])
  else
    let taskId := req.knight ++ "-ui-" ++ toString nowMillis
    let subject := "fleet-a.tasks." ++ req.domain ++ "." ++ taskId
    (HandlerResult.dispatched taskId subject, [subject])

/-- A decoded WebSocket command (`wsHandler` in `src/api/main.go`). -/
structure WsCommand where
  action : String
  knight : String
  domain : String
  task : String
  deriving Repr, DecidableEq

/-- The dispatch branch of the `wsHandler` read loop (`main.go:613`):
non-dispatch or invalid commands are skipped silently (`continue`), a
valid one publishes exactly one message.  Returns the subjects
published for this frame. -/
def wsDispatchStep (cmd : WsCommand) (nowMillis : Nat) : List String :=
  if cmd.action ≠ "dispatch" then []
  else if !(validKnightName cmd.knight) || !(validKnightName cmd.domain) then []
  else if cmd.task.utf8ByteSize = 0 ∨ 10000 < cmd.task.utf8ByteSize then []
  else ["fleet-a.tasks." ++ cmd.domain ++ "." ++ cmd.knight ++ "-ws-" ++ toString nowMillis]

/-- A two-step cycle: step `a` depends on `b` and `b` depends on `a`
(the configuration §4.2 of the spec discusses). -/
def cycSteps : List ChainStep :=
  [{ name := "a", dependsOn := ["b"] }, { name := "b", dependsOn := ["a"] }]

/-- The step-result truncation of `parseChainResource`
(`main.go:1445`): Go strings are byte sequences, so the result text is
embedded as its list of bytes; `[46, 46, 46]` is `"..."`.  An empty
result leaves the field `nil`. -/
def truncateResult (r : List Nat) : Option (List Nat) :=
  if r = [] then none
  else if 500 < r.length then some (r.take 500 ++ [46, 46, 46])
  else some r

/-! ## Event buffer lemmas -/

theorem onMessage_eq_take (prev : List NatsEvent) (e : NatsEvent) :
    onMessage prev e = (e :: prev).take MAX_EVENTS := by
  by_cases h : (e :: prev).length > MAX_EVENTS
  · simp [onMessage, h]
  · simp only [onMessage]
    rw [if_neg h]
    exact (List.take_of_length_le (by omega)).symm

theorem take_append_take {α : Type} (a b : List α) (n : Nat) :
    (a ++ b.take n).take n = (a ++ b).take n := by
  rw [List.take_append_eq_append_take, List.take_append_eq_append_take, List.take_take,
    Nat.min_eq_left (Nat.sub_le n a.length)]

theorem processMessages_eq_take (msgs : List (Option NatsEvent)) :
    ∀ init : List NatsEvent, init.length ≤ MAX_EVENTS →
    processMessages init msgs = ((msgs.filterMap id).reverse ++ init).take MAX_EVENTS := by
  induction msgs with
  | nil =>
    intro init h
    simp [processMessages, List.take_of_length_le h]
  | cons m rest ih =>
    intro init h
    cases m with
    | none =>
      simpa only [processMessages, List.foldl_cons, List.filterMap_cons] using ih init h
    | some e =>
      have h1 : (onMessage init e).length ≤ MAX_EVENTS := by
        rw [onMessage_eq_take]
        simp only [List.length_take]
        omega
      have h2 := ih (onMessage init e) h1
      simp only [processMessages, List.foldl_cons] at h2 ⊢
      rw [h2, onMessage_eq_take]
      rw [take_append_take]
      simp [List.filterMap_cons, List.append_assoc]

/-- C3: the event buffer never exceeds `MAX_EVENTS` entries; after any
sequence of deliveries it holds exactly the most recent (at most 200)
parsed events in receipt order, newest first, and once at least 200
parsed events were delivered it holds exactly 200. -/
theorem event_buffer_bounded (msgs : List (Option NatsEvent)) :
    processMessages [] msgs = (msgs.filterMap id).reverse.take MAX_EVENTS ∧
    (processMessages [] msgs).length ≤ MAX_EVENTS ∧
    (MAX_EVENTS ≤ (msgs.filterMap id).length →
      (processMessages [] msgs).length = MAX_EVENTS) := by
  have h := processMessages_eq_take msgs [] (by simp)
  simp only [List.append_nil] at h
  refine ⟨h, ?_, ?_⟩
  · rw [h]
    simp only [List.length_take]
    omega
  · intro hlen
    rw [h]
    simp only [List.length_take, List.length_reverse]
    omega

/-- Witness for `event_buffer_bounded`: 201 deliveries leave exactly
200 buffered events. -/
theorem event_buffer_bounded_witness :
    MAX_EVENTS ≤
      ((List.replicate 201 (some (⟨"task", "s", "", "t"⟩ : NatsEvent))).filterMap id).length ∧
    (processMessages [] (List.replicate 201 (some (⟨"task", "s", "", "t"⟩ : NatsEvent)))).length =
      MAX_EVENTS :=
  ⟨by set_option maxRecDepth 4000 in simp [List.filterMap_replicate, MAX_EVENTS],
   (event_buffer_bounded _).2.2
     (by set_option maxRecDepth 4000 in simp [List.filterMap_replicate, MAX_EVENTS])⟩

/-- C5: history seeding appends the historical batch behind the live
events, capped at `MAX_EVENTS`; seeding `[h1, h2]` into an empty buffer
and then receiving `e1` yields `[e1, h1, h2]`. -/
theorem seed_then_live_merge :
    (∀ prev hist : List NatsEvent, hist ≠ [] →
      seedHistory prev hist = (prev ++ hist).take MAX_EVENTS) ∧
    (∀ h1 h2 e1 : NatsEvent, onMessage (seedHistory [] [h1, h2]) e1 = [e1, h1, h2]) := by
  constructor
  · intro prev hist h
    unfold seedHistory
    rw [if_pos (List.length_pos.mpr h)]
  · intro h1 h2 e1
    rw [onMessage_eq_take]
    have hs : seedHistory [] [h1, h2] = [h1, h2] := by
      unfold seedHistory
      rw [if_pos (by simp)]
      exact List.take_of_length_le (by simp [MAX_EVENTS])
    rw [hs]
    exact List.take_of_length_le (by simp [MAX_EVENTS])

/-- Witness for `seed_then_live_merge`: its first part applied to a
concrete non-empty history batch. -/
theorem seed_then_live_merge_witness :
    seedHistory [] [(⟨"result", "s", "", "t"⟩ : NatsEvent)] =
      ([] ++ [(⟨"result", "s", "", "t"⟩ : NatsEvent)]).take MAX_EVENTS :=
  seed_then_live_merge.1 [] [⟨"result", "s", "", "t"⟩] (by simp)

/-! ## Reconnect backoff lemmas -/

theorem delayAfter_bounds : ∀ (trace : List ConnEvent) (d : Nat),
    RECONNECT_DELAY_MS ≤ d → d ≤ MAX_RECONNECT_DELAY_MS →
    RECONNECT_DELAY_MS ≤ delayAfter d trace ∧ delayAfter d trace ≤ MAX_RECONNECT_DELAY_MS := by
  intro trace
  induction trace with
  | nil => intro d h1 h2; exact ⟨h1, h2⟩
  | cons ev rest ih =>
    intro d h1 h2
    have hstep : delayAfter d (ev :: rest) = delayAfter (stepDelay d ev) rest := rfl
    rw [hstep]
    apply ih <;>
      cases ev <;>
        simp only [stepDelay, RECONNECT_DELAY_MS, MAX_RECONNECT_DELAY_MS] at * <;> omega

theorem usedDelays_bounds : ∀ (trace : List ConnEvent) (d : Nat),
    RECONNECT_DELAY_MS ≤ d → d ≤ MAX_RECONNECT_DELAY_MS →
    ∀ x ∈ usedDelays d trace, RECONNECT_DELAY_MS ≤ x ∧ x ≤ MAX_RECONNECT_DELAY_MS := by
  intro trace
  induction trace with
  | nil => intro d _ _ x hx; simp [usedDelays] at hx
  | cons ev rest ih =>
    intro d h1 h2 x hx
    cases ev with
    | opened =>
      exact ih RECONNECT_DELAY_MS (le_refl _)
        (by simp [RECONNECT_DELAY_MS, MAX_RECONNECT_DELAY_MS]) x hx
    | closed =>
      simp only [usedDelays, List.mem_cons] at hx
      rcases hx with rfl | hx
      · exact ⟨h1, h2⟩
      · refine ih _ ?_ ?_ x hx <;>
          simp only [RECONNECT_DELAY_MS, MAX_RECONNECT_DELAY_MS] at * <;> omega

theorem usedDelays_chain : ∀ (k : Nat) (d : Nat),
    RECONNECT_DELAY_MS ≤ d → d ≤ MAX_RECONNECT_DELAY_MS →
    List.Chain' (· ≤ ·) (usedDelays d (List.replicate k ConnEvent.closed)) := by
  intro k
  induction k with
  | zero => intro d _ _; simp [usedDelays]
  | succ k ih =>
    intro d h1 h2
    rw [List.replicate_succ]
    show List.Chain' (· ≤ ·)
      (d :: usedDelays (min (d * 2) MAX_RECONNECT_DELAY_MS) (List.replicate k ConnEvent.closed))
    have hnext₁ : RECONNECT_DELAY_MS ≤ min (d * 2) MAX_RECONNECT_DELAY_MS := by
      simp only [RECONNECT_DELAY_MS, MAX_RECONNECT_DELAY_MS] at *; omega
    have hnext₂ : min (d * 2) MAX_RECONNECT_DELAY_MS ≤ MAX_RECONNECT_DELAY_MS := min_le_right _ _
    cases k with
    | zero => simp [usedDelays]
    | succ k' =>
      rw [List.replicate_succ]
      show List.Chain' (· ≤ ·) (d :: min (d * 2) MAX_RECONNECT_DELAY_MS :: _)
      rw [List.chain'_cons]
      refine ⟨by omega, ?_⟩
      have := ih (min (d * 2) MAX_RECONNECT_DELAY_MS) hnext₁ hnext₂
      rw [List.replicate_succ] at this
      exact this

/-- C6: every delay actually used to schedule a reconnect stays at or
below 30000 ms; across consecutive failures the used delays are
non-decreasing; an `onopen` resets the stored delay to 3000 ms; and the
stored delay always stays within [3000, 30000]. -/
theorem reconnect_backoff :
    (∀ d trace, RECONNECT_DELAY_MS ≤ d → d ≤ MAX_RECONNECT_DELAY_MS →
      ∀ x ∈ usedDelays d trace, x ≤ MAX_RECONNECT_DELAY_MS) ∧
    (∀ d k, RECONNECT_DELAY_MS ≤ d → d ≤ MAX_RECONNECT_DELAY_MS →
      List.Chain' (· ≤ ·) (usedDelays d (List.replicate k ConnEvent.closed))) ∧
    (∀ trace, delayAfter RECONNECT_DELAY_MS (trace ++ [ConnEvent.opened]) = RECONNECT_DELAY_MS) ∧
    (∀ trace, RECONNECT_DELAY_MS ≤ delayAfter RECONNECT_DELAY_MS trace ∧
      delayAfter RECONNECT_DELAY_MS trace ≤ MAX_RECONNECT_DELAY_MS) := by
  refine ⟨?_, ?_, ?_, ?_⟩
  · intro d trace h1 h2 x hx
    exact (usedDelays_bounds trace d h1 h2 x hx).2
  · intro d k h1 h2
    exact usedDelays_chain k d h1 h2
  · intro trace
    unfold delayAfter
    rw [List.foldl_append]
    rfl
  · intro trace
    exact delayAfter_bounds trace RECONNECT_DELAY_MS (le_refl _)
      (by simp [RECONNECT_DELAY_MS, MAX_RECONNECT_DELAY_MS])

/-- Witness for `reconnect_backoff`: its bound and monotonicity parts
applied to concrete failure runs starting from the floor delay. -/
theorem reconnect_backoff_witness :
    6000 ≤ MAX_RECONNECT_DELAY_MS ∧
    List.Chain' (· ≤ ·) (usedDelays 3000 (List.replicate 3 ConnEvent.closed)) :=
  ⟨reconnect_backoff.1 3000 [ConnEvent.closed, ConnEvent.closed] (by decide) (by decide)
      6000 (by decide),
   reconnect_backoff.2.1 3000 3 (by decide) (by decide)⟩

/-! ## Dispatch validation -/

/-- C9: a dispatch request with an invalid knight or domain identifier,
or an empty or oversized task text, is answered with a 400 client error
and publishes nothing, on both the REST and the WebSocket path; a
request passing validation publishes exactly one message.  The
claim's example identifier `"../etc"` fails validation. -/
theorem dispatch_validation :
    (∀ req now, (validKnightName req.knight = false ∨ validKnightName req.domain = false ∨
        req.task.utf8ByteSize = 0 ∨ 10000 < req.task.utf8ByteSize) →
      (taskDispatchHandler req now).2 = [] ∧
      ∃ msg, (taskDispatchHandler req now).1 = HandlerResult.clientError 400 msg) ∧
    (∀ req now, validKnightName req.knight = true → validKnightName req.domain = true →
        req.task.utf8ByteSize ≠ 0 → req.task.utf8ByteSize ≤ 10000 →
      (taskDispatchHandler req now).2 =
        ["fleet-a.tasks." ++ req.domain ++ "." ++ (req.knight ++ "-ui-" ++ toString now)]) ∧
    (∀ cmd now, (validKnightName cmd.knight = false ∨ validKnightName cmd.domain = false ∨
        cmd.task.utf8ByteSize = 0 ∨ 10000 < cmd.task.utf8ByteSize) →
      wsDispatchStep cmd now = []) ∧
    (∀ cmd now, cmd.action = "dispatch" → validKnightName cmd.knight = true →
        validKnightName cmd.domain = true → cmd.task.utf8ByteSize ≠ 0 →
        cmd.task.utf8ByteSize ≤ 10000 →
      (wsDispatchStep cmd now).length = 1) ∧
    validKnightName "../etc" = false := by
  refine ⟨?_, ?_, ?_, ?_, by decide⟩
  · intro req now h
    unfold taskDispatchHandler
    rcases h with h | h | h | h
    · rw [if_pos (by simp [h])]
      exact ⟨rfl, _, rfl⟩
    · rw [if_pos (by simp [h])]
      exact ⟨rfl, _, rfl⟩
    · by_cases hk : !(validKnightName req.knight) || !(validKnightName req.domain)
      · rw [if_pos hk]
        exact ⟨rfl, _, rfl⟩
      · rw [if_neg hk, if_pos (Or.inl h)]
        exact ⟨rfl, _, rfl⟩
    · by_cases hk : !(validKnightName req.knight) || !(validKnightName req.domain)
      · rw [if_pos hk]
        exact ⟨rfl, _, rfl⟩
      · rw [if_neg hk, if_pos (Or.inr h)]
        exact ⟨rfl, _, rfl⟩
  · intro req now h1 h2 h3 h4
    unfold taskDispatchHandler
    rw [if_neg (by simp [h1, h2]), if_neg (by omega)]
  · intro cmd now h
    unfold wsDispatchStep
    by_cases ha : cmd.action ≠ "dispatch"
    · rw [if_pos ha]
    · rw [if_neg ha]
      rcases h with h | h | h | h
      · rw [if_pos (by simp [h])]
      · rw [if_pos (by simp [h])]
      · by_cases hk : !(validKnightName cmd.knight) || !(validKnightName cmd.domain)
        · rw [if_pos hk]
        · rw [if_neg hk, if_pos (Or.inl h)]
      · by_cases hk : !(validKnightName cmd.knight) || !(validKnightName cmd.domain)
        · rw [if_pos hk]
        · rw [if_neg hk, if_pos (Or.inr h)]
  · intro cmd now ha h1 h2 h3 h4
    unfold wsDispatchStep
    rw [if_neg (by simp [ha]), if_neg (by simp [h1, h2]), if_neg (by omega)]
    rfl

/-- Witness for `dispatch_validation`: the traversal identifier and an
empty task are rejected with nothing published; a well-formed request
publishes one message. -/
theorem dispatch_validation_witness :
    (taskDispatchHandler ⟨"../etc", "security", "ping", 0⟩ 0).2 = [] ∧
    (taskDispatchHandler ⟨"galahad", "security", "", 0⟩ 0).2 = [] ∧
    wsDispatchStep ⟨"dispatch", "../etc", "security", "ping"⟩ 0 = [] ∧
    (wsDispatchStep ⟨"dispatch", "galahad", "security", "ping"⟩ 7).length = 1 ∧
    (taskDispatchHandler ⟨"galahad", "security", "ping", 0⟩ 5).2 =
      ["fleet-a.tasks." ++ "security" ++ "." ++ ("galahad" ++ "-ui-" ++ toString 5)] :=
  ⟨(dispatch_validation.1 ⟨"../etc", "security", "ping", 0⟩ 0 (Or.inl (by decide))).1,
   (dispatch_validation.1 ⟨"galahad", "security", "", 0⟩ 0
      (Or.inr (Or.inr (Or.inl (by decide))))).1,
   dispatch_validation.2.2.1 ⟨"dispatch", "../etc", "security", "ping"⟩ 0 (Or.inl (by decide)),
   dispatch_validation.2.2.2.1 ⟨"dispatch", "galahad", "security", "ping"⟩ 7 rfl
     (by decide) (by decide) (by decide) (by decide),
   dispatch_validation.2.1 ⟨"galahad", "security", "ping", 0⟩ 5
     (by decide) (by decide) (by decide) (by decide)⟩

/-- C10: a non-empty step result of more than 500 bytes is truncated to
its first 500 bytes plus `"..."` (503 bytes total), a non-empty result
of at most 500 bytes is returned unchanged, and an empty result yields
no result field. -/
theorem chain_result_truncation (r : List Nat) :
    (r = [] → truncateResult r = none) ∧
    (r ≠ [] → r.length ≤ 500 → truncateResult r = some r) ∧
    (500 < r.length →
      truncateResult r = some (r.take 500 ++ [46, 46, 46]) ∧
      ∀ t, truncateResult r = some t → t.length = 503) := by
  refine ⟨?_, ?_, ?_⟩
  · intro h
    simp [truncateResult, h]
  · intro h1 h2
    unfold truncateResult
    rw [if_neg h1, if_neg (by omega)]
  · intro h
    have hne : r ≠ [] := by
      intro he
      rw [he] at h
      simp at h
    have heq : truncateResult r = some (r.take 500 ++ [46, 46, 46]) := by
      unfold truncateResult
      rw [if_neg hne, if_pos h]
    refine ⟨heq, ?_⟩
    intro t ht
    rw [heq] at ht
    have hinj := Option.some_injective _ ht
    have h500 : (500 : Nat) ≤ r.length := by omega
    rw [← hinj, List.length_append, List.length_take, Nat.min_eq_left h500]
    decide

/-- Witness for `chain_result_truncation`: empty, short, and oversized
results evaluated concretely. -/
theorem chain_result_truncation_witness :
    truncateResult [] = none ∧
    truncateResult [7] = some [7] ∧
    truncateResult (List.replicate 501 7) =
      some ((List.replicate 501 7).take 500 ++ [46, 46, 46]) :=
  ⟨(chain_result_truncation []).1 rfl,
   (chain_result_truncation [7]).2.1 (by simp) (by norm_num),
   ((chain_result_truncation (List.replicate 501 7)).2.2 (by norm_num)).1⟩

/-! ## Fleet busy detection -/

/-- C4: `FleetGraph` walks the newest-first buffer in array order, so a
`Result` that arrived AFTER its `Task` (and therefore sits at a lower
index) is processed before the `Task` and fails to clear the pending
set: with the buffer `[Result(t1), Task(t1)]` for `galahad` the busy
flag is `true`, although the matching result has been observed; in the
opposite (oldest-first) order the same two events yield `false`. -/
theorem fleet_busy_inverted :
    fleetBusy
      [⟨"result", "fleet-a.results.security.t1", "t1", "t10"⟩,
       ⟨"task", "fleet-a.tasks.security.t1", "t1", "t0"⟩] "galahad" = true ∧
    fleetBusy
      [⟨"task", "fleet-a.tasks.security.t1", "t1", "t0"⟩,
       ⟨"result", "fleet-a.results.security.t1", "t1", "t10"⟩] "galahad" = false := by
  decide

/-! ## Cyclic layout divergence -/

theorem cyc_getCol_none : ∀ fuel,
    getCol cycSteps fuel [] "a" = none ∧ getCol cycSteps fuel [] "b" = none := by
  intro fuel
  induction fuel with
  | zero => exact ⟨rfl, rfl⟩
  | succ f ih =>
    have step_a : getCol cycSteps (f + 1) [] "a" =
        match depsFold (getCol cycSteps f) 0 [] ["b"] with
        | none => none
        | some (m, cols') => some (m + 1, cols' ++ [("a", m + 1)]) := rfl
    have step_b : getCol cycSteps (f + 1) [] "b" =
        match depsFold (getCol cycSteps f) 0 [] ["a"] with
        | none => none
        | some (m, cols') => some (m + 1, cols' ++ [("b", m + 1)]) := rfl
    have da : depsFold (getCol cycSteps f) 0 [] ["b"] = none := by
      simp only [depsFold]
      rw [ih.2]
    have db : depsFold (getCol cycSteps f) 0 [] ["a"] = none := by
      simp only [depsFold]
      rw [ih.1]
    rw [step_a, step_b, da, db]
    exact ⟨rfl, rfl⟩

/-- C2: on the two-step cycle `a ↔ b` the column recursion produces no
result for ANY recursion budget — the source recursion never
terminates — and the layout produces no `CyclicDependency` error or any
other value: the embedded `layoutSteps` has no error outcome at all,
it simply never completes. -/
theorem cyclic_layout_diverges :
    (∀ fuel, getCol cycSteps fuel [] "a" = none) ∧
    runColumns cycSteps = none ∧
    layoutSteps cycSteps = none := by
  exact ⟨fun fuel => (cyc_getCol_none fuel).1, by decide, by decide⟩

/-! ## Memo-table and list lemmas -/

theorem lookupA_append_left {t : List (String × Nat)} {n : String} {c : Nat}
    (h : lookupA t n = some c) (u : List (String × Nat)) :
    lookupA (t ++ u) n = some c := by
  unfold lookupA at h ⊢
  rcases Option.map_eq_some'.mp h with ⟨p, hp, hpc⟩
  rw [List.find?_append, hp]
  simp [hpc]

theorem lookupA_append_right {t : List (String × Nat)} {n : String}
    (h : lookupA t n = none) (u : List (String × Nat)) :
    lookupA (t ++ u) n = lookupA u n := by
  unfold lookupA at h ⊢
  rw [List.find?_append, Option.map_eq_none'.mp h]
  rfl

theorem lookupA_eq_none_iff {t : List (String × Nat)} {n : String} :
    lookupA t n = none ↔ n ∉ t.map Prod.fst := by
  unfold lookupA
  rw [Option.map_eq_none', List.find?_eq_none]
  constructor
  · intro h hn
    rcases List.mem_map.mp hn with ⟨p, hp, hpn⟩
    exact absurd (by simp [hpn] : (fun q => q.1 = n) p = true) (by simpa using h p hp)
  · intro h p hp
    by_contra hcontra
    exact h (List.mem_map.mpr ⟨p, hp, by simpa using hcontra⟩)

theorem lookupA_singleton_self (n : String) (c : Nat) :
    lookupA [(n, c)] n = some c := by
  simp [lookupA, List.find?]

theorem extends_refl (t : List (String × Nat)) : Extends t t :=
  fun _ _ h => h

theorem extends_trans {t u v : List (String × Nat)}
    (h1 : Extends t u) (h2 : Extends u v) : Extends t v :=
  fun n c h => h2 n c (h1 n c h)

theorem extends_append (t u : List (String × Nat)) : Extends t (t ++ u) :=
  fun _ _ h => lookupA_append_left h u

theorem lookupA_append_singleton_cases {t : List (String × Nat)} {m n : String}
    {v c : Nat} (h : lookupA (t ++ [(m, v)]) n = some c) :
    lookupA t n = some c ∨ (lookupA t n = none ∧ n = m ∧ c = v) := by
  cases ht : lookupA t n with
  | some c' =>
    left
    rw [lookupA_append_left ht [(m, v)]] at h
    exact h
  | none =>
    right
    rw [lookupA_append_right ht [(m, v)]] at h
    by_cases hmn : n = m
    · subst hmn
      rw [lookupA_singleton_self] at h
      injection h with h
      exact ⟨rfl, rfl, h.symm⟩
    · rw [show lookupA [(m, v)] n = none from by
        simp [lookupA, List.find?, Ne.symm hmn]] at h
      exact absurd h (by simp)

theorem entryOK_mono {steps : List ChainStep} {t u : List (String × Nat)}
    {n : String} {c : Nat} (h : entryOK steps t n c) (hext : Extends t u) :
    entryOK steps u n c := by
  obtain ⟨h1, h2, h3⟩ := h
  refine ⟨h1, h2, ?_⟩
  intro s hs hne
  obtain ⟨hsome, hval⟩ := h3 s hs hne
  have hpt : ∀ x ∈ s.dependsOn, lookupA u x = lookupA t x := by
    intro x hx
    rcases Option.isSome_iff_exists.mp (hsome x hx) with ⟨cx, hcx⟩
    rw [hcx, hext x cx hcx]
  constructor
  · intro x hx
    rw [hpt x hx]
    exact hsome x hx
  · rw [hval]
    congr 2
    exact List.map_congr_left (fun x hx => by rw [hpt x hx])

theorem foldl_max_init_le : ∀ (l : List Nat) (m : Nat), m ≤ l.foldl max m := by
  intro l
  induction l with
  | nil => intro m; exact le_refl m
  | cons x xs ih =>
    intro m
    exact le_trans (le_max_left m x) (ih (max m x))

theorem le_foldl_max : ∀ (l : List Nat) (m x : Nat), x ∈ l → x ≤ l.foldl max m := by
  intro l
  induction l with
  | nil => intro m x hx; simp at hx
  | cons y ys ih =>
    intro m x hx
    rcases List.mem_cons.mp hx with rfl | hx
    · exact le_trans (le_max_right m x) (foldl_max_init_le ys (max m x))
    · exact ih (max m y) x hx

theorem le_maxList {l : List Nat} {x : Nat} (h : x ∈ l) : x ≤ maxList l :=
  le_foldl_max l 0 x h

theorem foldl_max_filter : ∀ (l : List String) (f : String → Nat) (p : String → Bool)
    (m : Nat), (∀ d ∈ l, p d = false → f d = 0) →
    (l.map f).foldl max m = ((l.filter p).map f).foldl max m := by
  intro l
  induction l with
  | nil => intro f p m _; rfl
  | cons d ds ih =>
    intro f p m h
    cases hp : p d with
    | true =>
      simp only [List.map_cons, List.filter_cons, hp, List.foldl_cons]
      exact ih f p (max m (f d)) (fun x hx => h x (List.mem_cons_of_mem d hx))
    | false =>
      have h0 : f d = 0 := h d (List.mem_cons_self d ds) hp
      simp only [List.map_cons, List.filter_cons, hp, List.foldl_cons, h0]
      rw [show max m 0 = m from by omega]
      exact ih f p m (fun x hx => h x (List.mem_cons_of_mem d hx))

theorem maxList_map_filter (l : List String) (f : String → Nat) (p : String → Bool)
    (h : ∀ d ∈ l, p d = false → f d = 0) :
    maxList (l.map f) = maxList ((l.filter p).map f) :=
  foldl_max_filter l f p 0 h

theorem mapGet_eq_some_of {steps : List ChainStep} {n : String} {s : ChainStep}
    (h : mapGet steps n = some s) : s ∈ steps ∧ s.name = n := by
  unfold mapGet at h
  have aux : ∀ (l : List ChainStep) (acc : Option ChainStep),
      l.foldl (fun acc t => if t.name = n then some t else acc) acc = some s →
      (s ∈ l ∧ s.name = n) ∨ acc = some s := by
    intro l
    induction l with
    | nil => intro acc h; exact Or.inr h
    | cons t ts ih =>
      intro acc h
      rcases ih _ h with ⟨hmem, hname⟩ | hacc
      · exact Or.inl ⟨List.mem_cons_of_mem t hmem, hname⟩
      · change (if t.name = n then some t else acc) = some s at hacc
        by_cases ht : t.name = n
        · rw [if_pos ht] at hacc
          injection hacc with hacc
          exact Or.inl ⟨by rw [← hacc]; exact List.mem_cons_self t ts,
            by rw [hacc] at ht; exact ht⟩
        · rw [if_neg ht] at hacc
          exact Or.inr hacc
  rcases aux steps none h with hgood | hbad
  · exact hgood
  · exact absurd hbad (by simp)

theorem mapGet_isSome_iff {steps : List ChainStep} {n : String} :
    (mapGet steps n).isSome = true ↔ n ∈ steps.map (fun s => s.name) := by
  unfold mapGet
  have aux : ∀ (l : List ChainStep) (acc : Option ChainStep),
      (l.foldl (fun acc t => if t.name = n then some t else acc) acc).isSome = true ↔
      n ∈ l.map (fun s => s.name) ∨ acc.isSome = true := by
    intro l
    induction l with
    | nil => intro acc; simp
    | cons t ts ih =>
      intro acc
      rw [List.foldl_cons, ih]
      by_cases ht : t.name = n
      · simp [ht]
      · simp only [List.map_cons, List.mem_cons, if_neg ht]
        constructor
        · intro h
          rcases h with h | h
          · exact Or.inl (Or.inr h)
          · exact Or.inr h
        · intro h
          rcases h with (h | h) | h
          · exact absurd h.symm ht
          · exact Or.inl h
          · exact Or.inr h
  rw [aux steps none]
  simp

theorem name_inj_of_nodup {steps : List ChainStep}
    (hnd : (steps.map (fun s => s.name)).Nodup) :
    ∀ a ∈ steps, ∀ b ∈ steps, a.name = b.name → a = b := by
  induction steps with
  | nil => intro a ha; simp at ha
  | cons t ts ih =>
    simp only [List.map_cons, List.nodup_cons] at hnd
    intro a ha b hb hab
    rcases List.mem_cons.mp ha with ha1 | ha1
    · rcases List.mem_cons.mp hb with hb1 | hb1
      · rw [ha1, hb1]
      · exfalso
        apply hnd.1
        rw [← ha1, hab]
        exact List.mem_map.mpr ⟨b, hb1, rfl⟩
    · rcases List.mem_cons.mp hb with hb1 | hb1
      · exfalso
        apply hnd.1
        rw [← hb1, ← hab]
        exact List.mem_map.mpr ⟨a, ha1, rfl⟩
      · exact ih hnd.2 a ha1 b hb1 hab

theorem mapGet_of_nodup {steps : List ChainStep} {s : ChainStep}
    (hnd : (steps.map (fun t => t.name)).Nodup) (hs : s ∈ steps) :
    mapGet steps s.name = some s := by
  have hsome : (mapGet steps s.name).isSome = true :=
    mapGet_isSome_iff.mpr (List.mem_map.mpr ⟨s, hs, rfl⟩)
  rcases Option.isSome_iff_exists.mp hsome with ⟨s', hs'⟩
  obtain ⟨hmem, hname⟩ := mapGet_eq_some_of hs'
  rw [hs', name_inj_of_nodup hnd s' hmem s hs hname]

/-! ## Soundness of the column computation -/

theorem depsFold_spec (steps : List ChainStep)
    (g : List (String × Nat) → String → Option (Nat × List (String × Nat)))
    (R : String → Nat)
    (hg : ∀ d cols c cols', Inv steps cols → g cols d = some (c, cols') →
      Inv steps cols' ∧ Extends cols cols' ∧ lookupA cols' d = some c ∧
      (∀ k, lookupA cols k = none → (lookupA cols' k).isSome = true →
        mapGet steps k = none ∨ ((mapGet steps d).isSome = true ∧ R k ≤ R d))) :
    ∀ (ds : List String) (m : Nat) (cols : List (String × Nat)) (mm : Nat)
      (cols'' : List (String × Nat)), Inv steps cols →
      depsFold g m cols ds = some (mm, cols'') →
      Inv steps cols'' ∧ Extends cols cols'' ∧
      (∀ d ∈ ds, (lookupA cols'' d).isSome = true) ∧
      mm = (ds.map (fun d => (lookupA cols'' d).getD 0)).foldl max m ∧
      (∀ k, lookupA cols k = none → (lookupA cols'' k).isSome = true →
        mapGet steps k = none ∨
          ∃ d ∈ ds, (mapGet steps d).isSome = true ∧ R k ≤ R d) := by
  intro ds
  induction ds with
  | nil =>
    intro m cols mm cols'' hInv h
    simp only [depsFold] at h
    injection h with h
    rw [Prod.mk.injEq] at h
    obtain ⟨rfl, rfl⟩ := h
    refine ⟨hInv, extends_refl cols, by simp, rfl, ?_⟩
    intro k hk hk'
    rw [hk] at hk'
    simp at hk'
  | cons d ds' ih =>
    intro m cols mm cols'' hInv h
    simp only [depsFold] at h
    cases hgcall : g cols d with
    | none =>
      rw [hgcall] at h
      exact absurd h (by simp)
    | some r =>
      obtain ⟨c, cols₁⟩ := r
      rw [hgcall] at h
      obtain ⟨hInv₁, hext₁, hlook₁, hnew₁⟩ := hg d cols c cols₁ hInv hgcall
      obtain ⟨hInv₂, hext₂, hall₂, hval₂, hnew₂⟩ := ih (max m c) cols₁ mm cols'' hInv₁ h
      refine ⟨hInv₂, extends_trans hext₁ hext₂, ?_, ?_, ?_⟩
      · intro x hx
        rcases List.mem_cons.mp hx with rfl | hx
        · rw [hext₂ x c hlook₁]
          rfl
        · exact hall₂ x hx
      · have hfd : (lookupA cols'' d).getD 0 = c := by
          rw [hext₂ d c hlook₁]
          rfl
        simp only [List.map_cons, List.foldl_cons, hfd]
        exact hval₂
      · intro k hk hk'
        cases hmid : lookupA cols₁ k with
        | some ck =>
          rcases hnew₁ k hk (by rw [hmid]; rfl) with hnone | ⟨hd, hR⟩
          · exact Or.inl hnone
          · exact Or.inr ⟨d, List.mem_cons_self d ds', hd, hR⟩
        | none =>
          rcases hnew₂ k hmid hk' with hnone | ⟨d', hd'1, hd'2, hd'3⟩
          · exact Or.inl hnone
          · exact Or.inr ⟨d', List.mem_cons_of_mem d hd'1, hd'2, hd'3⟩

theorem depsFold_total (steps : List ChainStep)
    (g : List (String × Nat) → String → Option (Nat × List (String × Nat)))
    (P : String → Prop)
    (hgInv : ∀ d cols c cols', Inv steps cols → g cols d = some (c, cols') →
      Inv steps cols')
    (hgTot : ∀ d cols, Inv steps cols → P d → (g cols d).isSome = true) :
    ∀ (ds : List String) (m : Nat) (cols : List (String × Nat)), Inv steps cols →
      (∀ d ∈ ds, P d) → (depsFold g m cols ds).isSome = true := by
  intro ds
  induction ds with
  | nil =>
    intro m cols _ _
    simp [depsFold]
  | cons d ds' ih =>
    intro m cols hInv hP
    simp only [depsFold]
    cases hgcall : g cols d with
    | none =>
      have := hgTot d cols hInv (hP d (List.mem_cons_self d ds'))
      rw [hgcall] at this
      exact absurd this (by simp)
    | some r =>
      obtain ⟨c, cols₁⟩ := r
      exact ih (max m c) cols₁ (hgInv d cols c cols₁ hInv hgcall)
        (fun x hx => hP x (List.mem_cons_of_mem d hx))

theorem getCol_sound (steps : List ChainStep) (rank : String → Nat)
    (hrank : ∀ s ∈ steps, ∀ d ∈ s.dependsOn, (mapGet steps d).isSome = true →
      rank d < rank s.name) :
    ∀ fuel : Nat,
      (∀ name cols c cols', Inv steps cols →
        getCol steps fuel cols name = some (c, cols') →
        Inv steps cols' ∧ Extends cols cols' ∧ lookupA cols' name = some c ∧
        (∀ k, lookupA cols k = none → (lookupA cols' k).isSome = true →
          mapGet steps k = none ∨
            ((mapGet steps name).isSome = true ∧ rank k ≤ rank name))) ∧
      (∀ name cols, Inv steps cols →
        ((mapGet steps name = none ∧ 1 ≤ fuel) ∨
         ((mapGet steps name).isSome = true ∧ rank name + 2 ≤ fuel)) →
        (getCol steps fuel cols name).isSome = true) := by
  intro fuel
  induction fuel with
  | zero =>
    constructor
    · intro name cols c cols' _ h
      exact absurd h (by simp [getCol])
    · intro name cols _ hcond
      rcases hcond with ⟨_, h1⟩ | ⟨_, h2⟩
      · omega
      · omega
  | succ f ih =>
    obtain ⟨ihSpec, ihTot⟩ := ih
    constructor
    · intro name cols c cols' hInv h
      cases hlook : lookupA cols name with
      | some c0 =>
        rw [show getCol steps (f + 1) cols name = some (c0, cols) from by
          simp only [getCol, hlook]] at h
        injection h with h
        rw [Prod.mk.injEq] at h
        obtain ⟨rfl, rfl⟩ := h
        refine ⟨hInv, extends_refl cols, hlook, ?_⟩
        intro k hk hk'
        rw [hk] at hk'
        simp at hk'
      | none =>
        cases hmg : mapGet steps name with
        | none =>
          rw [show getCol steps (f + 1) cols name = some (0, cols ++ [(name, 0)]) from by
            simp only [getCol, hlook, hmg]] at h
          injection h with h
          rw [Prod.mk.injEq] at h
          obtain ⟨rfl, rfl⟩ := h
          refine ⟨?_, extends_append cols _, ?_, ?_⟩
          · intro k ck hk
            rcases lookupA_append_singleton_cases hk with hin | ⟨hkn, hkeq, hckeq⟩
            · exact entryOK_mono (hInv k ck hin) (extends_append cols _)
            · rw [hkeq, hckeq]
              refine ⟨fun _ => rfl, fun s' _ _ => rfl, fun s' hs' _ => ?_⟩
              rw [hmg] at hs'
              exact absurd hs' (by simp)
          · rw [lookupA_append_right hlook, lookupA_singleton_self]
          · intro k hk hk'
            rcases Option.isSome_iff_exists.mp hk' with ⟨ck, hck⟩
            rcases lookupA_append_singleton_cases hck with hin | ⟨_, hkeq, _⟩
            · rw [hk] at hin
              exact absurd hin (by simp)
            · rw [hkeq]
              exact Or.inl hmg
        | some s =>
          obtain ⟨smem, sname⟩ := mapGet_eq_some_of hmg
          cases hdep : s.dependsOn with
          | nil =>
            rw [show getCol steps (f + 1) cols name = some (0, cols ++ [(name, 0)]) from by
              simp only [getCol, hlook, hmg, hdep]] at h
            injection h with h
            rw [Prod.mk.injEq] at h
            obtain ⟨rfl, rfl⟩ := h
            refine ⟨?_, extends_append cols _, ?_, ?_⟩
            · intro k ck hk
              rcases lookupA_append_singleton_cases hk with hin | ⟨hkn, hkeq, hckeq⟩
              · exact entryOK_mono (hInv k ck hin) (extends_append cols _)
              · rw [hkeq, hckeq]
                refine ⟨fun _ => rfl, fun s' _ _ => rfl, fun s' hs' hne => ?_⟩
                rw [hmg] at hs'
                injection hs' with hseq
                rw [← hseq] at hne
                exact absurd hdep hne
            · rw [lookupA_append_right hlook, lookupA_singleton_self]
            · intro k hk hk'
              rcases Option.isSome_iff_exists.mp hk' with ⟨ck, hck⟩
              rcases lookupA_append_singleton_cases hck with hin | ⟨_, hkeq, _⟩
              · rw [hk] at hin
                exact absurd hin (by simp)
              · rw [hkeq]
                exact Or.inr ⟨by simp [hmg], le_refl _⟩
          | cons d0 ds0 =>
            rw [show getCol steps (f + 1) cols name =
                (match depsFold (getCol steps f) 0 cols (d0 :: ds0) with
                 | none => none
                 | some (m, cols₁) => some (m + 1, cols₁ ++ [(name, m + 1)])) from by
              simp only [getCol, hlook, hmg, hdep]] at h
            cases hdf : depsFold (getCol steps f) 0 cols (d0 :: ds0) with
            | none =>
              rw [hdf] at h
              exact absurd h (by simp)
            | some r =>
              obtain ⟨m, cols₁⟩ := r
              rw [hdf] at h
              injection h with h
              rw [Prod.mk.injEq] at h
              obtain ⟨rfl, rfl⟩ := h
              obtain ⟨hInv₂, hext₂, hall₂, hval₂, hnew₂⟩ :=
                depsFold_spec steps (getCol steps f) rank ihSpec (d0 :: ds0) 0 cols m cols₁
                  hInv hdf
              have hfresh : lookupA cols₁ name = none := by
                cases hq : lookupA cols₁ name with
                | none => rfl
                | some cq =>
                  rcases hnew₂ name hlook (by rw [hq]; rfl) with hnone | ⟨d', hd'1, hd'2, hd'3⟩
                  · rw [hnone] at hmg
                    exact absurd hmg (by simp)
                  · have hlt := hrank s smem d' (by rw [hdep]; exact hd'1) hd'2
                    rw [sname] at hlt
                    omega
              have hlookup' : lookupA (cols₁ ++ [(name, m + 1)]) name = some (m + 1) := by
                rw [lookupA_append_right hfresh, lookupA_singleton_self]
              have hmap_eq : ∀ x ∈ s.dependsOn,
                  lookupA (cols₁ ++ [(name, m + 1)]) x = lookupA cols₁ x := by
                intro x hx
                rcases Option.isSome_iff_exists.mp
                  (hall₂ x (by rw [← hdep]; exact hx)) with ⟨cx, hcx⟩
                rw [hcx, lookupA_append_left hcx]
              refine ⟨?_, extends_trans hext₂ (extends_append cols₁ _), hlookup', ?_⟩
              · intro k ck hk
                rcases lookupA_append_singleton_cases hk with hin | ⟨hkn, hkeq, hckeq⟩
                · exact entryOK_mono (hInv₂ k ck hin) (extends_append cols₁ _)
                · rw [hkeq, hckeq]
                  refine ⟨fun hn => ?_, fun s' hs' hd' => ?_, fun s' hs' _ => ?_⟩
                  · rw [hn] at hmg
                    exact absurd hmg (by simp)
                  · rw [hmg] at hs'
                    injection hs' with hseq
                    rw [← hseq, hdep] at hd'
                    exact absurd hd' (by simp)
                  · rw [hmg] at hs'
                    injection hs' with hseq
                    subst hseq
                    constructor
                    · intro x hx
                      rw [hmap_eq x hx]
                      exact hall₂ x (by rw [← hdep]; exact hx)
                    · rw [show (s.dependsOn.map
                            (fun x => (lookupA (cols₁ ++ [(name, m + 1)]) x).getD 0)) =
                          (s.dependsOn.map (fun x => (lookupA cols₁ x).getD 0)) from
                        List.map_congr_left (fun x hx => by rw [hmap_eq x hx])]
                      unfold maxList
                      rw [hdep, ← hval₂]
                      omega
              · intro k hk hk'
                rcases Option.isSome_iff_exists.mp hk' with ⟨ck, hck⟩
                rcases lookupA_append_singleton_cases hck with hin | ⟨_, hkeq, _⟩
                · rcases hnew₂ k hk (by rw [hin]; rfl) with hnone | ⟨d', hd'1, hd'2, hd'3⟩
                  · exact Or.inl hnone
                  · have hlt := hrank s smem d' (by rw [hdep]; exact hd'1) hd'2
                    rw [sname] at hlt
                    exact Or.inr ⟨by simp [hmg], by omega⟩
                · rw [hkeq]
                  exact Or.inr ⟨by simp [hmg], le_refl _⟩
    · intro name cols hInv hcond
      cases hlook : lookupA cols name with
      | some c0 =>
        rw [show getCol steps (f + 1) cols name = some (c0, cols) from by
          simp only [getCol, hlook]]
        rfl
      | none =>
        rcases hcond with ⟨hmg, _⟩ | ⟨hmgS, hfuel⟩
        · rw [show getCol steps (f + 1) cols name = some (0, cols ++ [(name, 0)]) from by
            simp only [getCol, hlook, hmg]]
          rfl
        · rcases Option.isSome_iff_exists.mp hmgS with ⟨s, hmg⟩
          obtain ⟨smem, sname⟩ := mapGet_eq_some_of hmg
          cases hdep : s.dependsOn with
          | nil =>
            rw [show getCol steps (f + 1) cols name = some (0, cols ++ [(name, 0)]) from by
              simp only [getCol, hlook, hmg, hdep]]
            rfl
          | cons d0 ds0 =>
            rw [show getCol steps (f + 1) cols name =
                (match depsFold (getCol steps f) 0 cols (d0 :: ds0) with
                 | none => none
                 | some (m, cols₁) => some (m + 1, cols₁ ++ [(name, m + 1)])) from by
              simp only [getCol, hlook, hmg, hdep]]
            have hP : ∀ d ∈ d0 :: ds0,
                (mapGet steps d = none ∧ 1 ≤ f) ∨
                ((mapGet steps d).isSome = true ∧ rank d + 2 ≤ f) := by
              intro d hd
              have hd' : d ∈ s.dependsOn := by rw [hdep]; exact hd
              cases hpres : mapGet steps d with
              | none => exact Or.inl ⟨rfl, by omega⟩
              | some _ =>
                have hlt := hrank s smem d hd' (by rw [hpres]; rfl)
                rw [sname] at hlt
                exact Or.inr ⟨rfl, by omega⟩
            have htot := depsFold_total steps (getCol steps f)
              (fun d => (mapGet steps d = none ∧ 1 ≤ f) ∨
                ((mapGet steps d).isSome = true ∧ rank d + 2 ≤ f))
              (fun d cols' c cols'' hI hcall => (ihSpec d cols' c cols'' hI hcall).1)
              (fun d cols' hI hp => ihTot d cols' hI hp)
              (d0 :: ds0) 0 cols hInv hP
            cases hdf : depsFold (getCol steps f) 0 cols (d0 :: ds0) with
            | none =>
              rw [hdf] at htot
              exact absurd htot (by simp)
            | some r =>
              obtain ⟨m, cols₁⟩ := r
              rfl

theorem acyclic_bounded_rank {steps : List ChainStep} (h : Acyclic steps) :
    ∃ rank : String → Nat, (∀ n, rank n ≤ steps.length) ∧
      ∀ s ∈ steps, ∀ d ∈ s.dependsOn, (mapGet steps d).isSome = true →
        rank d < rank s.name := by
  obtain ⟨rank, hrank⟩ := h
  refine ⟨fun n => (((steps.map (fun s => s.name)).toFinset).filter
    (fun m => rank m < rank n)).card, ?_, ?_⟩
  · intro n
    calc ((steps.map (fun s => s.name)).toFinset.filter (fun m => rank m < rank n)).card
        ≤ (steps.map (fun s => s.name)).toFinset.card := Finset.card_filter_le _ _
      _ ≤ (steps.map (fun s => s.name)).length := (steps.map (fun s => s.name)).toFinset_card_le
      _ = steps.length := List.length_map _ _
  · intro s hs d hd hpres
    have hdS : d ∈ (steps.map (fun s => s.name)).toFinset :=
      List.mem_toFinset.mpr (mapGet_isSome_iff.mp hpres)
    have hlt : rank d < rank s.name := hrank s hs d hd hpres
    apply Finset.card_lt_card
    rw [Finset.ssubset_iff_of_subset]
    · exact ⟨d, Finset.mem_filter.mpr ⟨hdS, hlt⟩,
        fun hmem => absurd (Finset.mem_filter.mp hmem).2 (lt_irrefl _)⟩
    · intro x hx
      obtain ⟨hxS, hxlt⟩ := Finset.mem_filter.mp hx
      exact Finset.mem_filter.mpr ⟨hxS, lt_trans hxlt hlt⟩

theorem runColumns_sound (steps : List ChainStep) (h : Acyclic steps) :
    ∃ tbl, runColumns steps = some tbl ∧ Inv steps tbl ∧
      ∀ s ∈ steps, (lookupA tbl s.name).isSome = true := by
  obtain ⟨rank, hbound, hrank⟩ := acyclic_bounded_rank h
  obtain ⟨hSpec, hTot⟩ := getCol_sound steps rank hrank (layoutFuel steps)
  have main : ∀ (l : List ChainStep), (∀ s ∈ l, s ∈ steps) →
      ∀ cols, Inv steps cols →
      ∃ tbl, l.foldlM (fun cols s =>
          (getCol steps (layoutFuel steps) cols s.name).map Prod.snd) cols = some tbl ∧
        Inv steps tbl ∧ Extends cols tbl ∧
        ∀ s ∈ l, (lookupA tbl s.name).isSome = true := by
    intro l
    induction l with
    | nil =>
      intro _ cols hInv
      exact ⟨cols, rfl, hInv, extends_refl cols, by simp⟩
    | cons s l' ih =>
      intro hmem cols hInv
      have hsmem : s ∈ steps := hmem s (List.mem_cons_self s l')
      have hpres : (mapGet steps s.name).isSome = true :=
        mapGet_isSome_iff.mpr (List.mem_map.mpr ⟨s, hsmem, rfl⟩)
      have hTotApp : (getCol steps (layoutFuel steps) cols s.name).isSome = true := by
        apply hTot s.name cols hInv
        right
        refine ⟨hpres, ?_⟩
        have := hbound s.name
        unfold layoutFuel
        omega
      rcases Option.isSome_iff_exists.mp hTotApp with ⟨r, hr⟩
      obtain ⟨c, cols₁⟩ := r
      obtain ⟨hInv₁, hext₁, hlook₁, _⟩ := hSpec s.name cols c cols₁ hInv hr
      obtain ⟨tbl, htbl, hInvT, hextT, hmemT⟩ :=
        ih (fun x hx => hmem x (List.mem_cons_of_mem s hx)) cols₁ hInv₁
      refine ⟨tbl, ?_, hInvT, extends_trans hext₁ hextT, ?_⟩
      · rw [List.foldlM_cons, hr]
        exact htbl
      · intro x hx
        rcases List.mem_cons.mp hx with rfl | hx
        · rw [hextT x.name c hlook₁]
          rfl
        · exact hmemT x hx
  have hInvNil : Inv steps [] := by
    intro n c hc
    exact absurd hc (by simp [lookupA])
  obtain ⟨tbl, htbl, hInvT, _, hmemT⟩ := main steps (fun _ hs => hs) [] hInvNil
  exact ⟨tbl, htbl, hInvT, hmemT⟩

/-- C1: on an acyclic input the layout succeeds; every name that
resolves to a step gets a column which is 0 when its `dependsOn` is
empty and otherwise 1 plus the maximum of the columns assigned to its
dependency names; consequently along every dependency edge between
steps present in the list the dependent's column is strictly greater
than its dependency's column. -/
theorem chain_layout_columns (steps : List ChainStep) (hacyc : Acyclic steps) :
    ∃ tbl, runColumns steps = some tbl ∧ (layoutSteps steps).isSome = true ∧
      (∀ n s, mapGet steps n = some s →
        ∃ c, lookupA tbl n = some c ∧
          (s.dependsOn = [] → c = 0) ∧
          (s.dependsOn ≠ [] →
            c = 1 + maxList (s.dependsOn.map (fun d => (lookupA tbl d).getD 0)))) ∧
      (∀ a b ca cb, depEdge steps a b →
        lookupA tbl a = some ca → lookupA tbl b = some cb → ca < cb) := by
  obtain ⟨tbl, htbl, hInv, hmem⟩ := runColumns_sound steps hacyc
  refine ⟨tbl, htbl, ?_, ?_, ?_⟩
  · unfold layoutSteps
    rw [htbl]
    rfl
  · intro n s hmg
    obtain ⟨smem, sname⟩ := mapGet_eq_some_of hmg
    have hsome : (lookupA tbl n).isSome = true := by
      rw [← sname]
      exact hmem s smem
    rcases Option.isSome_iff_exists.mp hsome with ⟨c, hc⟩
    obtain ⟨e1, e2, e3⟩ := hInv n c hc
    exact ⟨c, hc, fun hd => e2 s hmg hd, fun hd => (e3 s hmg hd).2⟩
  · intro a b ca cb hedge hca hcb
    obtain ⟨hapres, hbmatch⟩ := hedge
    cases hmb : mapGet steps b with
    | none =>
      simp only [hmb] at hbmatch
    | some s =>
      simp only [hmb] at hbmatch
      have hdne : s.dependsOn ≠ [] := by
        intro he
        rw [he] at hbmatch
        exact absurd hbmatch (List.not_mem_nil a)
      obtain ⟨_, _, e3⟩ := hInv b cb hcb
      obtain ⟨hallsome, hval⟩ := e3 s hmb hdne
      have hmemmap : (lookupA tbl a).getD 0 ∈
          s.dependsOn.map (fun d => (lookupA tbl d).getD 0) :=
        List.mem_map.mpr ⟨a, hbmatch, rfl⟩
      have hle := le_maxList hmemmap
      rw [hca] at hle
      have hle' : ca ≤ maxList (s.dependsOn.map (fun d => (lookupA tbl d).getD 0)) := hle
      omega

/-- Witness for `chain_layout_columns`: the two-step chain `a ← b`
is acyclic and the theorem applies to it. -/
theorem chain_layout_columns_witness :
    ∃ tbl, runColumns [{ name := "a" }, { name := "b", dependsOn := ["a"] }] = some tbl ∧
      (layoutSteps [{ name := "a" }, { name := "b", dependsOn := ["a"] }]).isSome = true ∧
      (∀ n s, mapGet [{ name := "a" }, { name := "b", dependsOn := ["a"] }] n = some s →
        ∃ c, lookupA tbl n = some c ∧
          (s.dependsOn = [] → c = 0) ∧
          (s.dependsOn ≠ [] →
            c = 1 + maxList (s.dependsOn.map (fun d => (lookupA tbl d).getD 0)))) ∧
      (∀ a b ca cb, depEdge [{ name := "a" }, { name := "b", dependsOn := ["a"] }] a b →
        lookupA tbl a = some ca → lookupA tbl b = some cb → ca < cb) :=
  chain_layout_columns [{ name := "a" }, { name := "b", dependsOn := ["a"] }]
    ⟨fun n => if n = "b" then 1 else 0, by
      intro s hs d hd hpres
      rcases List.mem_cons.mp hs with rfl | hs1
      · simp at hd
      · rcases List.mem_cons.mp hs1 with rfl | hs2
        · have hd' : d = "a" := by simpa using hd
          subst hd'
          decide
        · simp at hs2⟩

/-! ## Dangling references -/

/-- C8 counterexample: a step whose single `dependsOn` reference names
no step in the list is assigned column 1, not 0 — the dangling name
itself receives column 0 and participates in the max computation. -/
theorem chain_layout_dangling_counterexample :
    runColumns [{ name := "a", dependsOn := ["ghost"] }] = some [("ghost", 0), ("a", 1)] ∧
    positionOf [{ name := "a", dependsOn := ["ghost"] }] "a" = some (1, 0) := by
  decide

/-- C8 (amended): on an acyclic input the layout succeeds rather than
failing over a dangling reference; every dangling reference is itself
assigned column 0 and takes part in the max computation, so a step
whose references are ALL dangling gets column 1 (not 0), while the
column of any step with dependencies equals 1 plus the maximum over
its EXISTING dependencies' columns (dangling references contribute 0
and never raise the max). -/
theorem chain_layout_dangling (steps : List ChainStep) (hacyc : Acyclic steps) :
    ∃ tbl, runColumns steps = some tbl ∧ (layoutSteps steps).isSome = true ∧
      (∀ n s, mapGet steps n = some s → ∀ d ∈ s.dependsOn, mapGet steps d = none →
        lookupA tbl d = some 0) ∧
      (∀ n s, mapGet steps n = some s → s.dependsOn ≠ [] →
        (∀ d ∈ s.dependsOn, mapGet steps d = none) → lookupA tbl n = some 1) ∧
      (∀ n s, mapGet steps n = some s → s.dependsOn ≠ [] →
        ∃ c, lookupA tbl n = some c ∧
          c = 1 + maxList ((s.dependsOn.filter (fun d => (mapGet steps d).isSome)).map
            (fun d => (lookupA tbl d).getD 0))) := by
  obtain ⟨tbl, htbl, hInv, hmem⟩ := runColumns_sound steps hacyc
  have hdangle : ∀ n s, mapGet steps n = some s → ∀ d ∈ s.dependsOn,
      mapGet steps d = none → lookupA tbl d = some 0 := by
    intro n s hmg d hd hdnone
    obtain ⟨smem, sname⟩ := mapGet_eq_some_of hmg
    have hsome : (lookupA tbl n).isSome = true := by
      rw [← sname]
      exact hmem s smem
    rcases Option.isSome_iff_exists.mp hsome with ⟨c, hc⟩
    have hdne : s.dependsOn ≠ [] := by
      intro he
      rw [he] at hd
      simp at hd
    obtain ⟨_, _, e3⟩ := hInv n c hc
    obtain ⟨hallsome, _⟩ := e3 s hmg hdne
    rcases Option.isSome_iff_exists.mp (hallsome d hd) with ⟨cd, hcd⟩
    obtain ⟨f1, _, _⟩ := hInv d cd hcd
    rw [hcd, f1 hdnone]
  have hfiltered : ∀ n s, mapGet steps n = some s → s.dependsOn ≠ [] →
      ∃ c, lookupA tbl n = some c ∧
        c = 1 + maxList ((s.dependsOn.filter (fun d => (mapGet steps d).isSome)).map
          (fun d => (lookupA tbl d).getD 0)) := by
    intro n s hmg hdne
    obtain ⟨smem, sname⟩ := mapGet_eq_some_of hmg
    have hsome : (lookupA tbl n).isSome = true := by
      rw [← sname]
      exact hmem s smem
    rcases Option.isSome_iff_exists.mp hsome with ⟨c, hc⟩
    obtain ⟨_, _, e3⟩ := hInv n c hc
    obtain ⟨hallsome, hval⟩ := e3 s hmg hdne
    refine ⟨c, hc, ?_⟩
    rw [hval]
    congr 1
    apply maxList_map_filter
    intro d hd hdfalse
    have hdnone : mapGet steps d = none := by
      cases hq : mapGet steps d with
      | none => rfl
      | some _ =>
        rw [hq] at hdfalse
        simp at hdfalse
    rw [hdangle n s hmg d hd hdnone]
    rfl
  refine ⟨tbl, htbl, by unfold layoutSteps; rw [htbl]; rfl, hdangle, ?_, hfiltered⟩
  intro n s hmg hdne halldangle
  obtain ⟨c, hc, hval⟩ := hfiltered n s hmg hdne
  have hfilter_nil : s.dependsOn.filter (fun d => (mapGet steps d).isSome) = [] := by
    rw [List.filter_eq_nil_iff]
    intro d hd
    rw [halldangle d hd]
    simp
  rw [hfilter_nil] at hval
  have hc1 : c = 1 := by
    rw [hval]
    rfl
  rw [hc, hc1]

/-- Witness for `chain_layout_dangling`: a step whose only reference is
dangling, on an acyclic list. -/
theorem chain_layout_dangling_witness :
    ∃ tbl, runColumns [{ name := "a", dependsOn := ["ghost"] }] = some tbl ∧
      (layoutSteps [{ name := "a", dependsOn := ["ghost"] }]).isSome = true ∧
      (∀ n s, mapGet [{ name := "a", dependsOn := ["ghost"] }] n = some s →
        ∀ d ∈ s.dependsOn, mapGet [{ name := "a", dependsOn := ["ghost"] }] d = none →
          lookupA tbl d = some 0) ∧
      (∀ n s, mapGet [{ name := "a", dependsOn := ["ghost"] }] n = some s →
        s.dependsOn ≠ [] →
        (∀ d ∈ s.dependsOn, mapGet [{ name := "a", dependsOn := ["ghost"] }] d = none) →
        lookupA tbl n = some 1) ∧
      (∀ n s, mapGet [{ name := "a", dependsOn := ["ghost"] }] n = some s →
        s.dependsOn ≠ [] →
        ∃ c, lookupA tbl n = some c ∧
          c = 1 + maxList ((s.dependsOn.filter
              (fun d => (mapGet [{ name := "a", dependsOn := ["ghost"] }] d).isSome)).map
            (fun d => (lookupA tbl d).getD 0))) :=
  chain_layout_dangling [{ name := "a", dependsOn := ["ghost"] }]
    ⟨fun _ => 0, by
      intro s hs d hd hpres
      rcases List.mem_cons.mp hs with rfl | hs1
      · have hd' : d = "ghost" := by simpa using hd
        subst hd'
        exact absurd hpres (by decide)
      · simp at hs1⟩

/-! ## Row assignment -/

/-- C7 counterexample: in the input `[u (depends on t), s, t]` the
steps `s` (input position 1) and `t` (input position 2) both land in
column 0, yet `t` is assigned row 0 and `s` row 1 — the opposite of
the input order, because `t`'s column is computed first, while `u` is
processed. -/
theorem chain_layout_rows_counterexample :
    positionOf [{ name := "u", dependsOn := ["t"] }, { name := "s" }, { name := "t" }]
      "s" = some (0, 1) ∧
    positionOf [{ name := "u", dependsOn := ["t"] }, { name := "s" }, { name := "t" }]
      "t" = some (0, 0) := by
  decide

theorem lookupA_isSome_iff {t : List (String × Nat)} {n : String} :
    (lookupA t n).isSome = true ↔ n ∈ t.map Prod.fst := by
  rw [← Option.ne_none_iff_isSome]
  constructor
  · intro h
    by_contra hcon
    exact h (lookupA_eq_none_iff.mpr hcon)
  · intro h hcon
    exact absurd (lookupA_eq_none_iff.mp hcon) (by simpa using h)

theorem depsFold_all_memo (steps : List ChainStep) (f : Nat) :
    ∀ (ds : List String) (m : Nat) (cols : List (String × Nat)),
      (∀ d ∈ ds, (lookupA cols d).isSome = true) →
      ∃ mm, depsFold (getCol steps (f + 1)) m cols ds = some (mm, cols) := by
  intro ds
  induction ds with
  | nil =>
    intro m cols _
    exact ⟨m, rfl⟩
  | cons d ds' ih =>
    intro m cols hall
    rcases Option.isSome_iff_exists.mp (hall d (List.mem_cons_self d ds')) with ⟨c, hc⟩
    obtain ⟨mm, hmm⟩ := ih (max m c) cols (fun x hx => hall x (List.mem_cons_of_mem d hx))
    refine ⟨mm, ?_⟩
    simp only [depsFold]
    rw [show getCol steps (f + 1) cols d = some (c, cols) from by simp only [getCol, hc]]
    exact hmm

theorem getCol_step_ordered (steps : List ChainStep) (f : Nat)
    (cols : List (String × Nat)) (s : ChainStep)
    (hmg : mapGet steps s.name = some s)
    (hfresh : lookupA cols s.name = none)
    (hall : ∀ d ∈ s.dependsOn, (lookupA cols d).isSome = true) :
    ∃ v, getCol steps (f + 2) cols s.name = some (v, cols ++ [(s.name, v)]) := by
  cases hdep : s.dependsOn with
  | nil =>
    refine ⟨0, ?_⟩
    rw [show getCol steps (f + 2) cols s.name = some (0, cols ++ [(s.name, 0)]) from by
      simp only [getCol, hfresh, hmg, hdep]]
  | cons d0 ds0 =>
    obtain ⟨mm, hmm⟩ := depsFold_all_memo steps f (d0 :: ds0) 0 cols
      (by rw [← hdep]; exact hall)
    refine ⟨mm + 1, ?_⟩
    rw [show getCol steps (f + 2) cols s.name =
        (match depsFold (getCol steps (f + 1)) 0 cols (d0 :: ds0) with
         | none => none
         | some (m, cols₁) => some (m + 1, cols₁ ++ [(s.name, m + 1)])) from by
      simp only [getCol, hfresh, hmg, hdep]]
    rw [hmm]

theorem runColumns_ordered (steps : List ChainStep)
    (hnd : (steps.map (fun s => s.name)).Nodup) (hdp : DepsPrecede steps) :
    ∃ tbl, runColumns steps = some tbl ∧
      tbl.map Prod.fst = steps.map (fun s => s.name) := by
  have main : ∀ (l pre : List ChainStep), steps = pre ++ l →
      ∀ cols : List (String × Nat), cols.map Prod.fst = pre.map (fun s => s.name) →
      ∃ tbl, l.foldlM (fun cols s =>
          (getCol steps (layoutFuel steps) cols s.name).map Prod.snd) cols = some tbl ∧
        tbl.map Prod.fst = pre.map (fun s => s.name) ++ l.map (fun s => s.name) := by
    intro l
    induction l with
    | nil =>
      intro pre _ cols hkeys
      exact ⟨cols, rfl, by rw [hkeys]; simp⟩
    | cons s l' ih =>
      intro pre hsteps cols hkeys
      have hsmem : s ∈ steps := by
        rw [hsteps]
        exact List.mem_append_right pre (List.mem_cons_self s l')
      have hmg : mapGet steps s.name = some s := mapGet_of_nodup hnd hsmem
      have hndsplit : (pre.map (fun t => t.name) ++
          (s.name :: l'.map (fun t => t.name))).Nodup := by
        have := hnd
        rw [hsteps] at this
        simpa using this
      have hfreshname : s.name ∉ pre.map (fun t => t.name) := by
        intro hcon
        rcases List.nodup_append.mp hndsplit with ⟨_, _, hdisj⟩
        exact hdisj hcon (List.mem_cons_self _ _)
      have hfresh : lookupA cols s.name = none := by
        rw [lookupA_eq_none_iff, hkeys]
        exact hfreshname
      have hall : ∀ d ∈ s.dependsOn, (lookupA cols d).isSome = true := by
        intro d hd
        rw [lookupA_isSome_iff, hkeys]
        exact hdp pre s l' hsteps d hd
      obtain ⟨v, hv⟩ := getCol_step_ordered steps steps.length cols s hmg hfresh hall
      have hvF : getCol steps (layoutFuel steps) cols s.name =
          some (v, cols ++ [(s.name, v)]) := hv
      obtain ⟨tbl, htbl, hkeysT⟩ := ih (pre ++ [s])
        (by rw [hsteps]; simp)
        (cols ++ [(s.name, v)])
        (by rw [List.map_append, List.map_append, hkeys]; rfl)
      refine ⟨tbl, ?_, ?_⟩
      · rw [List.foldlM_cons, hvF]
        exact htbl
      · rw [hkeysT]
        simp
  obtain ⟨tbl, htbl, hkeys⟩ := main steps [] rfl [] rfl
  exact ⟨tbl, htbl, by rw [hkeys]; simp⟩

theorem find?_map_keyed (tbl : List (String × Nat)) (g : String × Nat → Nat × Nat)
    (n : String) :
    (tbl.map (fun p => (p.1, g p))).find? (fun q => q.1 = n) =
      (tbl.find? (fun p => p.1 = n)).map (fun p => (p.1, g p)) := by
  induction tbl with
  | nil => rfl
  | cons p tbl' ih =>
    by_cases hp : p.1 = n
    · simp [List.find?_cons_of_pos, hp]
    · rw [List.map_cons, List.find?_cons_of_neg _ (by simpa using hp),
        List.find?_cons_of_neg _ (by simpa using hp)]
      exact ih

theorem positionOf_runColumns {steps : List ChainStep} {tbl : List (String × Nat)}
    (htbl : runColumns steps = some tbl) {n : String} {c : Nat}
    (hc : lookupA tbl n = some c) :
    positionOf steps n = some (c, (colGroup tbl c).indexOf n) := by
  unfold positionOf layoutSteps
  rw [htbl]
  simp only [Option.map_some', Option.some_bind]
  rw [show (fun p : String × Nat => (p.1, p.2, (colGroup tbl p.2).indexOf p.1)) =
      (fun p : String × Nat => (p.1, (fun q : String × Nat =>
        (q.2, (colGroup tbl q.2).indexOf q.1)) p)) from rfl]
  rw [find?_map_keyed tbl (fun q => (q.2, (colGroup tbl q.2).indexOf q.1)) n]
  unfold lookupA at hc
  rcases Option.map_eq_some'.mp hc with ⟨p₀, hp₀, hp₀c⟩
  have hp₀n : p₀.1 = n := by simpa using List.find?_some hp₀
  rw [hp₀]
  simp [hp₀c, hp₀n]

theorem lookupA_getElem_of_nodup : ∀ (tbl : List (String × Nat)),
    (tbl.map Prod.fst).Nodup →
    ∀ i (hi : i < tbl.length),
      lookupA tbl (tbl.get ⟨i, hi⟩).1 = some (tbl.get ⟨i, hi⟩).2 := by
  intro tbl
  induction tbl with
  | nil =>
    intro _ i hi
    simp at hi
  | cons p tbl' ih =>
    intro hnd i hi
    simp only [List.map_cons, List.nodup_cons] at hnd
    cases i with
    | zero =>
      simp [lookupA, List.find?]
    | succ i' =>
      have hi' : i' < tbl'.length := by simpa using hi
      have hget : (p :: tbl').get ⟨i' + 1, hi⟩ = tbl'.get ⟨i', hi'⟩ := rfl
      rw [hget]
      have hne : p.1 ≠ (tbl'.get ⟨i', hi'⟩).1 := by
        intro hcon
        apply hnd.1
        rw [hcon]
        exact List.mem_map.mpr ⟨tbl'.get ⟨i', hi'⟩, List.get_mem _ _ _, rfl⟩
      unfold lookupA
      rw [List.find?_cons_of_neg _ (by simpa using hne)]
      exact ih hnd.2 i' hi'

theorem colGroup_cons_pos {p : String × Nat} {tbl : List (String × Nat)} {c : Nat}
    (h : p.2 = c) : colGroup (p :: tbl) c = p.1 :: colGroup tbl c := by
  unfold colGroup
  rw [List.filter_cons_of_pos (by simpa using h)]
  rfl

theorem colGroup_cons_neg {p : String × Nat} {tbl : List (String × Nat)} {c : Nat}
    (h : p.2 ≠ c) : colGroup (p :: tbl) c = colGroup tbl c := by
  unfold colGroup
  rw [List.filter_cons_of_neg (by simpa using h)]

theorem colGroup_indexOf_lt : ∀ (tbl : List (String × Nat)),
    (tbl.map Prod.fst).Nodup →
    ∀ i j (hi : i < tbl.length) (hj : j < tbl.length), i < j →
    (tbl.get ⟨i, hi⟩).2 = (tbl.get ⟨j, hj⟩).2 →
    (colGroup tbl (tbl.get ⟨i, hi⟩).2).indexOf (tbl.get ⟨i, hi⟩).1 <
      (colGroup tbl (tbl.get ⟨j, hj⟩).2).indexOf (tbl.get ⟨j, hj⟩).1 := by
  intro tbl
  induction tbl with
  | nil =>
    intro _ i j hi
    simp at hi
  | cons p tbl' ih =>
    intro hnd i j hi hj hij hcol
    simp only [List.map_cons, List.nodup_cons] at hnd
    cases j with
    | zero => omega
    | succ j' =>
      have hj' : j' < tbl'.length := by simpa using hj
      have hgetj : (p :: tbl').get ⟨j' + 1, hj⟩ = tbl'.get ⟨j', hj'⟩ := rfl
      have hqmem : (tbl'.get ⟨j', hj'⟩).1 ∈ tbl'.map Prod.fst :=
        List.mem_map.mpr ⟨tbl'.get ⟨j', hj'⟩, List.get_mem _ _ _, rfl⟩
      have hqne : (tbl'.get ⟨j', hj'⟩).1 ≠ p.1 := by
        intro hcon
        apply hnd.1
        rw [← hcon]
        exact hqmem
      cases i with
      | zero =>
        have hgeti : (p :: tbl').get ⟨0, hi⟩ = p := rfl
        rw [hgeti, hgetj] at hcol ⊢
        rw [colGroup_cons_pos rfl, colGroup_cons_pos hcol]
        rw [List.indexOf_cons_self, List.indexOf_cons_ne _ hqne.symm]
        omega
      | succ i' =>
        have hi' : i' < tbl'.length := by simpa using hi
        have hgeti : (p :: tbl').get ⟨i' + 1, hi⟩ = tbl'.get ⟨i', hi'⟩ := rfl
        rw [hgeti, hgetj] at hcol ⊢
        have hpmem : (tbl'.get ⟨i', hi'⟩).1 ∈ tbl'.map Prod.fst :=
          List.mem_map.mpr ⟨tbl'.get ⟨i', hi'⟩, List.get_mem _ _ _, rfl⟩
        have hpne : (tbl'.get ⟨i', hi'⟩).1 ≠ p.1 := by
          intro hcon
          apply hnd.1
          rw [← hcon]
          exact hpmem
        have hrec := ih hnd.2 i' j' hi' hj' (by omega) hcol
        by_cases hpc : p.2 = (tbl'.get ⟨i', hi'⟩).2
        · rw [colGroup_cons_pos hpc, colGroup_cons_pos (hpc.trans hcol)]
          rw [List.indexOf_cons_ne _ hpne.symm, List.indexOf_cons_ne _ hqne.symm]
          omega
        · rw [colGroup_cons_neg hpc,
            colGroup_cons_neg (fun h => hpc (h.trans hcol.symm))]
          exact hrec

theorem keys_get_eq : ∀ (tbl : List (String × Nat)) (steps : List ChainStep),
    tbl.map Prod.fst = steps.map (fun s => s.name) →
    ∀ i (hi : i < tbl.length) (hi2 : i < steps.length),
      (tbl.get ⟨i, hi⟩).1 = (steps.get ⟨i, hi2⟩).name := by
  intro tbl
  induction tbl with
  | nil =>
    intro steps _ i hi
    simp at hi
  | cons p t ih =>
    intro steps hk i hi hi2
    cases steps with
    | nil => simp at hi2
    | cons s st =>
      simp only [List.map_cons, List.cons.injEq] at hk
      cases i with
      | zero => exact hk.1
      | succ i' => exact ih st hk.2 i' (by simpa using hi) (by simpa using hi2)

/-- C7 (amended): when step names are unique and every dependency names
an earlier step of the input list, the memo table lists the steps in
exactly the input order, and within each column the rows follow the
input's stable order — two same-column steps are assigned rows ordered
as their input positions.  (In general rows follow the order in which
columns are first computed, which differs from input order when a step
depends on a later-listed step, see the counterexample.) -/
theorem chain_layout_rows (steps : List ChainStep)
    (hnd : (steps.map (fun s => s.name)).Nodup) (hdp : DepsPrecede steps) :
    ∃ tbl, runColumns steps = some tbl ∧
      tbl.map Prod.fst = steps.map (fun s => s.name) ∧
      ∀ i j (hi : i < steps.length) (hj : j < steps.length), i < j →
        ∀ ci ri cj rj,
          positionOf steps (steps.get ⟨i, hi⟩).name = some (ci, ri) →
          positionOf steps (steps.get ⟨j, hj⟩).name = some (cj, rj) →
          ci = cj → ri < rj := by
  obtain ⟨tbl, htbl, hkeys⟩ := runColumns_ordered steps hnd hdp
  refine ⟨tbl, htbl, hkeys, ?_⟩
  intro i j hi hj hij ci ri cj rj hpi hpj hcc
  have hndt : (tbl.map Prod.fst).Nodup := by
    rw [hkeys]
    exact hnd
  have hlen : tbl.length = steps.length := by
    have h := congrArg List.length hkeys
    simpa using h
  have hi' : i < tbl.length := by omega
  have hj' : j < tbl.length := by omega
  have hli := lookupA_getElem_of_nodup tbl hndt i hi'
  have hlj := lookupA_getElem_of_nodup tbl hndt j hj'
  have hni := keys_get_eq tbl steps hkeys i hi' hi
  have hnj := keys_get_eq tbl steps hkeys j hj' hj
  have hpi2 := positionOf_runColumns htbl hli
  have hpj2 := positionOf_runColumns htbl hlj
  rw [hni] at hpi2
  rw [hnj] at hpj2
  rw [hpi] at hpi2
  rw [hpj] at hpj2
  injection hpi2 with hpi2
  injection hpj2 with hpj2
  rw [Prod.mk.injEq] at hpi2 hpj2
  obtain ⟨hci, hri⟩ := hpi2
  obtain ⟨hcj, hrj⟩ := hpj2
  have hcol : (tbl.get ⟨i, hi'⟩).2 = (tbl.get ⟨j, hj'⟩).2 := by
    rw [← hci, ← hcj]
    exact hcc
  have hrow := colGroup_indexOf_lt tbl hndt i j hi' hj' hij hcol
  rw [hri, hrj, ← hni, ← hnj]
  exact hrow

/-- Witness for `chain_layout_rows`: the two-step chain `a ← b` has
unique names and dependencies that precede their dependents. -/
theorem chain_layout_rows_witness :
    ∃ tbl, runColumns [{ name := "a" }, { name := "b", dependsOn := ["a"] }] = some tbl ∧
      tbl.map Prod.fst =
        [{ name := "a" }, { name := "b", dependsOn := ["a"] }].map
          (fun s : ChainStep => s.name) ∧
      ∀ i j (hi : i < ([{ name := "a" }, { name := "b", dependsOn := ["a"] }] :
            List ChainStep).length)
          (hj : j < ([{ name := "a" }, { name := "b", dependsOn := ["a"] }] :
            List ChainStep).length), i < j →
        ∀ ci ri cj rj,
          positionOf [{ name := "a" }, { name := "b", dependsOn := ["a"] }]
            (([{ name := "a" }, { name := "b", dependsOn := ["a"] }] :
              List ChainStep).get ⟨i, hi⟩).name = some (ci, ri) →
          positionOf [{ name := "a" }, { name := "b", dependsOn := ["a"] }]
            (([{ name := "a" }, { name := "b", dependsOn := ["a"] }] :
              List ChainStep).get ⟨j, hj⟩).name = some (cj, rj) →
          ci = cj → ri < rj :=
  chain_layout_rows [{ name := "a" }, { name := "b", dependsOn := ["a"] }]
    (by decide)
    (by
      intro pre s post heq d hd
      cases pre with
      | nil =>
        injection heq with h1 h2
        subst h1
        simp at hd
      | cons p pre' =>
        injection heq with h1 h2
        cases pre' with
        | nil =>
          injection h2 with h3 h4
          subst h3
          subst h1
          have hd' : d = "a" := by simpa using hd
          subst hd'
          simp
        | cons p2 pre'' =>
          injection h2 with h3 h4
          simp at h4)

end RoundTable
